import Mathlib

/-!
Shallow embedding of `src/main.rs` (weighted bottom-up tree automaton,
generalized Dijkstra best-derivation search) and verification of the
specification's claims about it.

Modelling conventions:
* Rust `usize` weights and states become `Nat` (no overflow is exercised).
* `HashMap` becomes an association list with first-match lookup and
  replace-on-insert, which matches `HashMap::get` / `HashMap::insert`.
* `Rc<TreeNode>` pointer identity (`Rc::ptr_eq`) is modelled by tagging each
  `Rc::new` allocation with a fresh numeric id (`nid`) threaded through the
  search as a counter; two clones of one `Rc` share the id, two distinct
  allocations never do.
* `BinaryHeap` is modelled as a list; `push` is cons and `pop` removes the
  greatest element under the reversed-by-weight `Ord` implementation of
  `TreeNode` (hence the minimum weight), taking the first among equals.
* The `.unwrap()` calls in `find_path` are modelled by a `panicked` outcome;
  the search loop runs on explicit fuel, `none` meaning fuel ran out.
-/

namespace TreeAutomata

/-- States are `usize` in the source. -/
abbrev State := Nat

/-- A concrete symbol: `SymbolTrait` asks for `Eq + Clone` and a
`weight()` accessor; an id field keeps equality non-trivial. -/
structure Symbol where
  sid : Nat
  weight : Nat
deriving DecidableEq

/-- `enum StatePair { Single(State), Pair(State, State) }`. -/
inductive StatePair where
  | single : State → StatePair
  | pair : State → State → StatePair
deriving DecidableEq

/-- One stored hyperarc entry `(Option<State>, S, State)`:
(partner still required, symbol, target state). -/
abbrev Arc := Option State × Symbol × State

/-- First-match lookup in an association list (`HashMap::get`). -/
def alistLookup {α : Type} : List (Nat × α) → Nat → Option α
  | [], _ => none
  | (k, v) :: rest, key => if k = key then some v else alistLookup rest key

/-- Replace-or-append insert (`HashMap::insert`). -/
def usedInsert {α : Type} : List (Nat × α) → Nat → α → List (Nat × α)
  | [], k, v => [(k, v)]
  | (k2, v2) :: rest, k, v =>
      if k2 = k then (k, v) :: rest else (k2, v2) :: usedInsert rest k v

/-- `items.entry(k).or_insert_with(Vec::new).push(a)`: append the arc to the
vector stored under `k`, creating the entry if absent. -/
def arcsInsert : List (Nat × List Arc) → Nat → Arc → List (Nat × List Arc)
  | [], k, a => [(k, [a])]
  | (k2, v) :: rest, k, a =>
      if k2 = k then (k2, v ++ [a]) :: rest else (k2, v) :: arcsInsert rest k a

/-- `struct Transition { items: HashMap<State, Vec<(Option<State>, S, State)>> }`. -/
structure Transition where
  items : List (Nat × List Arc)

/-- `Transition::new`. -/
def Transition.new : Transition := ⟨[]⟩

/-- `Transition::add` (src/main.rs lines 27-49), exactly as written: a
`Single` operand is keyed under that state with no partner; a `Pair(s1, s2)`
operand pushes `(Some(s2), symbol, end)` under key `s1` and then
`(Some(s1), symbol, end)` again under key `s1`. -/
def Transition.add (t : Transition) (symbol : Symbol) (start : StatePair)
    (endState : State) : Transition :=
  match start with
  | .single s => ⟨arcsInsert t.items s (none, symbol, endState)⟩
  | .pair s1 s2 =>
      ⟨arcsInsert (arcsInsert t.items s1 (some s2, symbol, endState))
        s1 (some s1, symbol, endState)⟩

/-- `struct TreeNode` with the allocation id `nid` standing in for the `Rc`
pointer (see the header comment). -/
inductive TreeNode where
  | mk (nid : Nat) (state : State) (firstChild : Option TreeNode)
      (secondChild : Option TreeNode) (symbol : Option Symbol)
      (weight : Nat) : TreeNode

def TreeNode.nid : TreeNode → Nat
  | .mk i _ _ _ _ _ => i

def TreeNode.state : TreeNode → State
  | .mk _ s _ _ _ _ => s

def TreeNode.firstChild : TreeNode → Option TreeNode
  | .mk _ _ c _ _ _ => c

def TreeNode.secondChild : TreeNode → Option TreeNode
  | .mk _ _ _ c _ _ => c

def TreeNode.symbol : TreeNode → Option Symbol
  | .mk _ _ _ _ y _ => y

def TreeNode.weight : TreeNode → Nat
  | .mk _ _ _ _ _ w => w

/-- `impl PartialEq for TreeNode`: `self.weight == other.weight` — equality
for ordering purposes compares weight only. -/
def eqNode (a b : TreeNode) : Bool := a.weight == b.weight

/-- `impl Ord for TreeNode`: `other.weight.cmp(&self.weight)` — the reversed
comparison that turns Rust's max-`BinaryHeap` into a min-by-weight frontier. -/
def cmpNode (a b : TreeNode) : Ordering := compare b.weight a.weight

/-- `BinaryHeap::pop` on the list model: remove the greatest element under
`cmpNode` (first among equals), i.e. the minimum-weight node. -/
def heapPop : List TreeNode → Option (TreeNode × List TreeNode)
  | [] => none
  | x :: xs =>
    match heapPop xs with
    | none => some (x, [])
    | some (m, rest) =>
        if cmpNode m x = .gt then some (m, x :: rest) else some (x, xs)

/-- `Transition::transition_list` (lines 51-66): all arcs stored under `from`
whose recorded partner, if any, is currently a key of `used_node`. -/
def Transition.transition_list (t : Transition) (fromState : State)
    (usedNode : List (Nat × TreeNode)) : List Arc :=
  ((alistLookup t.items fromState).getD []).filter fun a =>
    match a.1 with
    | some st => (alistLookup usedNode st).isSome
    | none => true

/-- The relaxation guard of line 175, exactly as written:
`new_ref.weight < used_node.get(&new_ref.state).map_or(0, |item| item.weight)`
(an absent best-known entry is treated as weight `0`). -/
def relaxCheck (usedNode : List (Nat × TreeNode)) (newRef : TreeNode) : Bool :=
  decide (newRef.weight < ((alistLookup usedNode newRef.state).map TreeNode.weight).getD 0)

/-- Modelled from the spec (§4.2 Relax): install when no best-known entry
exists yet for the candidate's target state, or when the candidate's weight
is strictly below the current best-known weight. Stated separately so it can
be compared with the source's `relaxCheck`. -/
def relaxCheckSpec (usedNode : List (Nat × TreeNode)) (newRef : TreeNode) : Bool :=
  match alistLookup usedNode newRef.state with
  | none => true
  | some m => decide (newRef.weight < m.weight)

/-- The body of the `for (near, transition, next)` loop (lines 156-179):
build the candidate node (fresh allocation id `ctr`), then relax. Returns
`none` on the `used_node.get(&neighbor).unwrap()` panic (partner absent). -/
def relaxArc (item : TreeNode)
    (st : List (Nat × TreeNode) × List TreeNode × Nat) (arc : Arc) :
    Option (List (Nat × TreeNode) × List TreeNode × Nat) :=
  let used := st.1
  let heap := st.2.1
  let ctr := st.2.2
  let newRefOpt : Option TreeNode :=
    match arc.1 with
    | some neighbor =>
      match alistLookup used neighbor with
      | none => none
      | some pn =>
          some (.mk ctr arc.2.2 (some item) (some pn) (some arc.2.1)
            (item.weight + pn.weight + arc.2.1.weight))
    | none =>
        some (.mk ctr arc.2.2 (some item) none (some arc.2.1)
          (item.weight + arc.2.1.weight))
  match newRefOpt with
  | none => none
  | some newRef =>
      if relaxCheck used newRef then
        some (usedInsert used newRef.state newRef, newRef :: heap, ctr + 1)
      else
        some (used, heap, ctr + 1)

/-- Fold `relaxArc` over the arc list, aborting on panic. -/
def relaxAll (item : TreeNode) :
    List Arc → List (Nat × TreeNode) × List TreeNode × Nat →
    Option (List (Nat × TreeNode) × List TreeNode × Nat)
  | [], st => some st
  | a :: rest, st =>
    match relaxArc item st a with
    | none => none
    | some st2 => relaxAll item rest st2

/-- `struct TreeAutomation`. -/
structure TreeAutomation where
  transition : Transition
  start_state : List (State × Nat)
  final_state : Option State

/-- `TreeAutomation::new`. -/
def TreeAutomation.new : TreeAutomation := ⟨Transition.new, [], none⟩

/-- `TreeAutomation::add_transition`. -/
def TreeAutomation.add_transition (ta : TreeAutomation) (symbol : Symbol)
    (start : StatePair) (endState : State) : TreeAutomation :=
  { ta with transition := ta.transition.add symbol start endState }

/-- `TreeAutomation::set_final_state`. -/
def TreeAutomation.set_final_state (ta : TreeAutomation) (f : State) :
    TreeAutomation :=
  { ta with final_state := some f }

/-- `TreeAutomation::add_initial_state` (`Vec::push`). -/
def TreeAutomation.add_initial_state (ta : TreeAutomation) (s : State)
    (w : Nat) : TreeAutomation :=
  { ta with start_state := ta.start_state ++ [(s, w)] }

/-- Outcome of `find_path`: `found n` models `return Some(item)`,
`exhausted` models the final `None`, `panicked` models a `.unwrap()` panic. -/
inductive SearchResult where
  | found : TreeNode → SearchResult
  | exhausted : SearchResult
  | panicked : SearchResult

/-- The seeding loop of lines 127-139: for each declared initial state (in
declaration order) allocate a childless node, insert it as best-known and
push the just-inserted node onto the heap. -/
def seed : List (State × Nat) → List (Nat × TreeNode) → List TreeNode → Nat →
    List (Nat × TreeNode) × List TreeNode × Nat
  | [], used, heap, ctr => (used, heap, ctr)
  | (s, w) :: rest, used, heap, ctr =>
    let node := TreeNode.mk ctr s none none none w
    seed rest (usedInsert used s node) (node :: heap) (ctr + 1)

/-- The `while let Some(item) = heap.pop()` loop of lines 141-182, on fuel
(`none` = fuel ran out; the loop itself always terminates in the source).
Branches in source order: the `Rc::ptr_eq` identity check (line 143, `continue`
when the popped node IS the registered one), the `final_state.unwrap()`
comparison (line 147), then relaxation of the popped node's outgoing arcs. -/
def findLoop (ta : TreeAutomation) :
    List (Nat × TreeNode) → List TreeNode → Nat → Nat → Option SearchResult
  | _, _, _, 0 => none
  | used, heap, ctr, fuel + 1 =>
    match heapPop heap with
    | none => some .exhausted
    | some (item, heap2) =>
      match alistLookup used item.state with
      | none => some .panicked
      | some best =>
        if item.nid = best.nid then
          findLoop ta used heap2 ctr fuel
        else
          match ta.final_state with
          | none => some .panicked
          | some f =>
            if item.state = f then some (.found item)
            else
              match relaxAll item (ta.transition.transition_list item.state used)
                  (used, heap2, ctr) with
              | none => some .panicked
              | some st2 => findLoop ta st2.1 st2.2.1 st2.2.2 fuel

/-- `TreeAutomation::find_path` (lines 124-183): seed, then run the loop. -/
def TreeAutomation.find_path (ta : TreeAutomation) (fuel : Nat) :
    Option SearchResult :=
  let s := seed ta.start_state [] [] 0
  findLoop ta s.1 s.2.1 s.2.2 fuel

/-- Modelled from the spec (glossary "Derivation", §4.2 steps): an accepting
derivation reaches a state with a weight, starting from a declared initial
state, applying declared unary or binary hyperarcs and summing symbol
weights. Stated over the declared-arc list, independently of the table. -/
inductive SpecDerives (arcs : List (Symbol × StatePair × State))
    (start : List (State × Nat)) : State → Nat → Prop where
  | init (s : State) (w : Nat) : (s, w) ∈ start → SpecDerives arcs start s w
  | unary (sym : Symbol) (s t : State) (w : Nat) :
      (sym, StatePair.single s, t) ∈ arcs → SpecDerives arcs start s w →
      SpecDerives arcs start t (w + sym.weight)
  | binary (sym : Symbol) (a b t : State) (wa wb : Nat) :
      (sym, StatePair.pair a b, t) ∈ arcs → SpecDerives arcs start a wa →
      SpecDerives arcs start b wb →
      SpecDerives arcs start t (wa + wb + sym.weight)

/-! ### Concrete automata used as inputs -/

/-- A symbol of weight 1. -/
def symA : Symbol := ⟨0, 1⟩

/-- Spec Scenario A: initial state 0 with weight 0, unary arc
`0 --symA(1)--> 1`, final state 1. -/
def scenarioA : TreeAutomation :=
  ((TreeAutomation.new.add_initial_state 0 0).add_transition symA
    (.single 0) 1).set_final_state 1

/-- The declared arcs of Scenario A, for the spec-side derivation relation. -/
def scenarioAarcs : List (Symbol × StatePair × State) := [(symA, .single 0, 1)]

/-- State 0 seeded twice, with weight 1 then weight 0; final state 0. The
second seeding supersedes the first in the best-known table, so the stale
weight-1 node fails the (inverted) identity check and is processed. -/
def dupAuto : TreeAutomation :=
  ((TreeAutomation.new.add_initial_state 0 1).add_initial_state 0 0).set_final_state 0

/-- One initial state 0 with weight 0, which is also the final state. -/
def c1auto : TreeAutomation :=
  (TreeAutomation.new.add_initial_state 0 0).set_final_state 0

/-- One initial state, no final state designated. -/
def noFinalSingle : TreeAutomation :=
  TreeAutomation.new.add_initial_state 0 0

/-- State 0 seeded twice (weights 1 and 0), no final state designated. -/
def noFinalDup : TreeAutomation :=
  (TreeAutomation.new.add_initial_state 0 1).add_initial_state 0 0

/-- Spec Scenario C: the final state 2 is unreachable. -/
def scenarioC : TreeAutomation :=
  ((TreeAutomation.new.add_initial_state 0 0).add_transition symA
    (.single 0) 1).set_final_state 2

/-- Two distinct initial states 0 and 1; final state 1 (seeded directly). -/
def distinctAuto : TreeAutomation :=
  ((TreeAutomation.new.add_initial_state 0 0).add_initial_state 1 3).set_final_state 1

/-- A childless node of weight 2, for exercising the ordering relations. -/
def nodeWt2 : TreeNode := .mk 0 0 none none none 2

/-- A childless node of weight 5, for exercising the ordering relations. -/
def nodeWt5 : TreeNode := .mk 1 1 none none none 5

/-! ### Weight-invariant predicate for derivation nodes -/

/-- Weight contributed by an optional child (0 when absent). -/
def childWeight : Option TreeNode → Nat
  | none => 0
  | some c => c.weight

/-- Boolean membership of a (state, weight) pair in the initial-state list. -/
def pairMem (p : State × Nat) : List (State × Nat) → Bool
  | [] => false
  | q :: rest => (q.1 == p.1 && q.2 == p.2) || pairMem p rest

/-- The weight invariant of the spec's Derivation-node data model: a node
with a symbol weighs the symbol's weight plus the weights of whichever
children are present (and the children satisfy the invariant recursively);
a node with no symbol is an initial/start node — childless and carrying a
declared (state, starting-weight) pair. -/
def nodeWFb (start : List (State × Nat)) : TreeNode → Bool
  | .mk _ s c1 c2 y w =>
    match y with
    | some sym =>
        (w == sym.weight + childWeight c1 + childWeight c2) &&
        (match c1 with
         | none => true
         | some c => nodeWFb start c) &&
        (match c2 with
         | none => true
         | some c => nodeWFb start c)
    | none =>
        (match c1 with
         | none => true
         | some _ => false) &&
        (match c2 with
         | none => true
         | some _ => false) &&
        pairMem (s, w) start

@[simp] theorem TreeNode.nid_mk (i s : Nat) (c d : Option TreeNode)
    (y : Option Symbol) (w : Nat) : (TreeNode.mk i s c d y w).nid = i := rfl

@[simp] theorem TreeNode.state_mk (i s : Nat) (c d : Option TreeNode)
    (y : Option Symbol) (w : Nat) : (TreeNode.mk i s c d y w).state = s := rfl

@[simp] theorem TreeNode.weight_mk (i s : Nat) (c d : Option TreeNode)
    (y : Option Symbol) (w : Nat) : (TreeNode.mk i s c d y w).weight = w := rfl

/-! ### Association-list and heap lemmas -/

theorem alistLookup_usedInsert_self {α : Type} :
    ∀ (l : List (Nat × α)) (k : Nat) (v : α),
      alistLookup (usedInsert l k v) k = some v
  | [], k, v => by simp [usedInsert, alistLookup]
  | (k2, v2) :: rest, k, v => by
    by_cases h : k2 = k
    · simp [usedInsert, h, alistLookup]
    · simp [usedInsert, h, alistLookup, alistLookup_usedInsert_self rest k v]

theorem alistLookup_usedInsert_ne {α : Type} :
    ∀ (l : List (Nat × α)) (k k2 : Nat) (v : α), k ≠ k2 →
      alistLookup (usedInsert l k v) k2 = alistLookup l k2
  | [], k, k2, v, h => by simp [usedInsert, alistLookup, h]
  | (k3, v3) :: rest, k, k2, v, h => by
    by_cases h3 : k3 = k
    · subst h3
      simp [usedInsert, alistLookup, h, Ne.symm h]
    · simp only [usedInsert, if_neg h3]
      by_cases h32 : k3 = k2
      · simp [alistLookup, h32]
      · simp [alistLookup, h32, alistLookup_usedInsert_ne rest k k2 v h]

theorem isSome_alistLookup_usedInsert {α : Type} (l : List (Nat × α))
    (k k2 : Nat) (v : α) (h : (alistLookup l k2).isSome) :
    (alistLookup (usedInsert l k v) k2).isSome := by
  by_cases hk : k = k2
  · subst hk
    rw [alistLookup_usedInsert_self]
    rfl
  · rw [alistLookup_usedInsert_ne l k k2 v hk]
    exact h

theorem alistLookup_mem {α : Type} :
    ∀ (l : List (Nat × α)) (k : Nat) (v : α),
      alistLookup l k = some v → (k, v) ∈ l
  | [], k, v, h => by simp [alistLookup] at h
  | (k2, v2) :: rest, k, v, h => by
    by_cases hk : k2 = k
    · subst hk
      simp [alistLookup] at h
      subst h
      exact List.mem_cons_self _ _
    · simp [alistLookup, hk] at h
      exact List.mem_cons_of_mem _ (alistLookup_mem rest k v h)

theorem mem_usedInsert {α : Type} :
    ∀ (l : List (Nat × α)) (k : Nat) (v : α) (p : Nat × α),
      p ∈ usedInsert l k v → p = (k, v) ∨ p ∈ l
  | [], k, v, p, h => by simpa [usedInsert] using h
  | (k2, v2) :: rest, k, v, p, h => by
    by_cases hk : k2 = k
    · simp [usedInsert, hk] at h
      rcases h with h | h
      · exact Or.inl (by simp [h])
      · exact Or.inr (List.mem_cons_of_mem _ h)
    · simp [usedInsert, hk] at h
      rcases h with h | h
      · exact Or.inr (by simp [h])
      · rcases mem_usedInsert rest k v p h with h2 | h2
        · exact Or.inl h2
        · exact Or.inr (List.mem_cons_of_mem _ h2)

theorem heapPop_eq_none : ∀ (l : List TreeNode), heapPop l = none ↔ l = []
  | [] => by simp [heapPop]
  | x :: xs => by
    constructor
    · intro h
      unfold heapPop at h
      cases hx : heapPop xs with
      | none => rw [hx] at h; simp at h
      | some p =>
        rw [hx] at h
        by_cases hc : cmpNode p.1 x = .gt <;> simp [hc] at h
    · intro h
      simp at h

theorem heapPop_mem :
    ∀ (l : List TreeNode) (n : TreeNode) (r : List TreeNode),
      heapPop l = some (n, r) → n ∈ l
  | [], n, r, h => by simp [heapPop] at h
  | x :: xs, n, r, h => by
    unfold heapPop at h
    cases hx : heapPop xs with
    | none =>
      rw [hx] at h
      simp at h
      exact List.mem_cons.mpr (Or.inl h.1.symm)
    | some p =>
      obtain ⟨m0, rest0⟩ := p
      rw [hx] at h
      by_cases hc : cmpNode m0 x = .gt
      · simp [hc] at h
        obtain ⟨h1, -⟩ := h
        subst h1
        exact List.mem_cons.mpr (Or.inr (heapPop_mem xs m0 rest0 hx))
      · simp [hc] at h
        exact List.mem_cons.mpr (Or.inl h.1.symm)

theorem heapPop_subset :
    ∀ (l : List TreeNode) (n : TreeNode) (r : List TreeNode),
      heapPop l = some (n, r) → ∀ m ∈ r, m ∈ l
  | [], n, r, h => by simp [heapPop] at h
  | x :: xs, n, r, h => by
    unfold heapPop at h
    cases hx : heapPop xs with
    | none =>
      rw [hx] at h
      simp at h
      obtain ⟨-, h2⟩ := h
      subst h2
      intro m hm
      simp at hm
    | some p =>
      obtain ⟨m0, rest0⟩ := p
      rw [hx] at h
      by_cases hc : cmpNode m0 x = .gt
      · simp [hc] at h
        obtain ⟨-, h2⟩ := h
        subst h2
        intro m hm
        rcases List.mem_cons.mp hm with h3 | h3
        · exact List.mem_cons.mpr (Or.inl h3)
        · exact List.mem_cons.mpr
            (Or.inr (heapPop_subset xs m0 rest0 hx m h3))
      · simp [hc] at h
        obtain ⟨-, h2⟩ := h
        subst h2
        intro m hm
        exact List.mem_cons.mpr (Or.inr hm)

theorem heapPop_length :
    ∀ (l : List TreeNode) (n : TreeNode) (r : List TreeNode),
      heapPop l = some (n, r) → r.length + 1 = l.length
  | [], n, r, h => by simp [heapPop] at h
  | x :: xs, n, r, h => by
    unfold heapPop at h
    cases hx : heapPop xs with
    | none =>
      rw [hx] at h
      simp at h
      obtain ⟨-, h2⟩ := h
      subst h2
      have h3 : xs = [] := (heapPop_eq_none xs).mp hx
      subst h3
      rfl
    | some p =>
      obtain ⟨m0, rest0⟩ := p
      rw [hx] at h
      by_cases hc : cmpNode m0 x = .gt
      · simp [hc] at h
        obtain ⟨-, h2⟩ := h
        subst h2
        have h3 := heapPop_length xs m0 rest0 hx
        simp only [List.length_cons] at h3 ⊢
        omega
      · simp [hc] at h
        obtain ⟨-, h2⟩ := h
        subst h2
        rfl

theorem heapPop_min :
    ∀ (l : List TreeNode) (n : TreeNode) (r : List TreeNode),
      heapPop l = some (n, r) → ∀ m ∈ l, n.weight ≤ m.weight
  | [], n, r, h => by simp [heapPop] at h
  | x :: xs, n, r, h => by
    unfold heapPop at h
    cases hx : heapPop xs with
    | none =>
      rw [hx] at h
      simp at h
      obtain ⟨h1, -⟩ := h
      subst h1
      have h3 : xs = [] := (heapPop_eq_none xs).mp hx
      subst h3
      intro m hm
      simp at hm
      subst hm
      exact Nat.le_refl _
    | some p =>
      obtain ⟨m0, rest0⟩ := p
      rw [hx] at h
      by_cases hc : cmpNode m0 x = .gt
      · have hlt : m0.weight < x.weight := by
          simpa [cmpNode, Nat.compare_eq_gt] using hc
        simp [hc] at h
        obtain ⟨h1, -⟩ := h
        subst h1
        intro m hm
        rcases List.mem_cons.mp hm with h3 | h3
        · exact h3 ▸ Nat.le_of_lt hlt
        · exact heapPop_min xs m0 rest0 hx m h3
      · have hge : x.weight ≤ m0.weight := by
          have := mt (Nat.compare_eq_gt (a := x.weight) (b := m0.weight)).mpr
            (by simpa [cmpNode] using hc)
          omega
        simp [hc] at h
        obtain ⟨h1, -⟩ := h
        subst h1
        intro m hm
        rcases List.mem_cons.mp hm with h3 | h3
        · exact h3 ▸ Nat.le_refl _
        · exact Nat.le_trans hge (heapPop_min xs m0 rest0 hx m h3)

/-! ### Seeding and loop lemmas -/

theorem seed_heap_length :
    ∀ (rest : List (State × Nat)) (used : List (Nat × TreeNode))
      (heap : List TreeNode) (ctr : Nat),
      (seed rest used heap ctr).2.1.length = heap.length + rest.length
  | [], _, _, _ => by simp [seed]
  | (s, w) :: rest, used, heap, ctr => by
    simp only [seed]
    rw [seed_heap_length rest _ _ _]
    simp only [List.length_cons]
    omega

theorem seed_lookup_nodup :
    ∀ (rest : List (State × Nat)) (used : List (Nat × TreeNode))
      (heap : List TreeNode) (ctr : Nat),
      (rest.map Prod.fst).Nodup →
      (∀ p ∈ rest, ∀ n ∈ heap, n.state ≠ p.1) →
      (∀ n ∈ heap, alistLookup used n.state = some n) →
      ∀ n ∈ (seed rest used heap ctr).2.1,
        alistLookup (seed rest used heap ctr).1 n.state = some n
  | [], used, heap, ctr, _, _, hinv => by simpa [seed] using hinv
  | (s, w) :: rest, used, heap, ctr, hnodup, hdisj, hinv => by
    rw [List.map_cons, List.nodup_cons] at hnodup
    obtain ⟨hhead, htail⟩ := hnodup
    simp only [seed]
    apply seed_lookup_nodup rest _ _ _ htail
    · intro p hp n hn
      rcases List.mem_cons.mp hn with h1 | h1
      · subst h1
        simp only [TreeNode.state_mk]
        intro he
        apply hhead
        rw [he]
        exact List.mem_map.mpr ⟨p, hp, rfl⟩
      · exact hdisj p (List.mem_cons_of_mem _ hp) n h1
    · intro n hn
      rcases List.mem_cons.mp hn with h1 | h1
      · subst h1
        simp only [TreeNode.state_mk]
        exact alistLookup_usedInsert_self used s _
      · have hne : s ≠ n.state :=
          Ne.symm (hdisj (s, w) (List.mem_cons_self _ _) n h1)
        rw [alistLookup_usedInsert_ne used s n.state _ hne]
        exact hinv n h1

theorem findLoop_all_identical (ta : TreeAutomation) :
    ∀ (fuel : Nat) (used : List (Nat × TreeNode)) (heap : List TreeNode)
      (ctr : Nat),
      (∀ n ∈ heap, alistLookup used n.state = some n) →
      heap.length < fuel →
      findLoop ta used heap ctr fuel = some .exhausted
  | 0, _, _, _, _, hlen => by omega
  | fuel + 1, used, heap, ctr, hinv, hlen => by
    unfold findLoop
    split
    · rfl
    next item heap2 hp =>
      have hitem : alistLookup used item.state = some item :=
        hinv item (heapPop_mem heap item heap2 hp)
      split
      · next heq => rw [hitem] at heq; cases heq
      next best heq =>
        have hbest : item = best := by
          rw [hitem] at heq
          exact Option.some.inj heq
        rw [if_pos (congrArg TreeNode.nid hbest)]
        apply findLoop_all_identical ta fuel used heap2 ctr
        · intro n hn
          exact hinv n (heapPop_subset heap item heap2 hp n hn)
        · have := heapPop_length heap item heap2 hp
          omega

/-! ### Relaxation invariants: best-known keys only grow, and every heap
node's state is a best-known key (so the `.unwrap()` lookups succeed) -/

theorem relaxArc_ne_none (item : TreeNode) (used : List (Nat × TreeNode))
    (heap : List TreeNode) (ctr : Nat) (arc : Arc)
    (hp : ∀ nb, arc.1 = some nb → (alistLookup used nb).isSome) :
    relaxArc item (used, heap, ctr) arc ≠ none := by
  obtain ⟨nearOpt, sym, tgt⟩ := arc
  cases nearOpt with
  | none =>
    simp only [relaxArc]
    split <;> simp
  | some nb =>
    have hs := hp nb rfl
    cases hl : alistLookup used nb with
    | none => rw [hl] at hs; cases hs
    | some pn =>
      simp only [relaxArc, hl]
      split <;> simp

theorem relaxArc_invK (item : TreeNode) (used used2 : List (Nat × TreeNode))
    (heap heap2 : List TreeNode) (ctr ctr2 : Nat) (arc : Arc)
    (h : relaxArc item (used, heap, ctr) arc = some (used2, heap2, ctr2)) :
    (∀ k, (alistLookup used k).isSome → (alistLookup used2 k).isSome) ∧
    (∀ n ∈ heap2, n ∈ heap ∨ (alistLookup used2 n.state).isSome) := by
  obtain ⟨nearOpt, sym, tgt⟩ := arc
  cases nearOpt with
  | none =>
    simp only [relaxArc] at h
    split at h <;> simp at h
    · obtain ⟨hu, hh, -⟩ := h
      subst hu
      subst hh
      constructor
      · intro k hk
        exact isSome_alistLookup_usedInsert used _ k _ hk
      · intro n hn
        rcases List.mem_cons.mp hn with h1 | h1
        · subst h1
          refine Or.inr ?_
          simp only [TreeNode.state_mk]
          rw [alistLookup_usedInsert_self]
          rfl
        · exact Or.inl h1
    · obtain ⟨hu, hh, -⟩ := h
      subst hu
      subst hh
      exact ⟨fun k hk => hk, fun n hn => Or.inl hn⟩
  | some nb =>
    cases hl : alistLookup used nb with
    | none => simp [relaxArc, hl] at h
    | some pn =>
      simp only [relaxArc, hl] at h
      split at h <;> simp at h
      · obtain ⟨hu, hh, -⟩ := h
        subst hu
        subst hh
        constructor
        · intro k hk
          exact isSome_alistLookup_usedInsert used _ k _ hk
        · intro n hn
          rcases List.mem_cons.mp hn with h1 | h1
          · subst h1
            refine Or.inr ?_
            simp only [TreeNode.state_mk]
            rw [alistLookup_usedInsert_self]
            rfl
          · exact Or.inl h1
      · obtain ⟨hu, hh, -⟩ := h
        subst hu
        subst hh
        exact ⟨fun k hk => hk, fun n hn => Or.inl hn⟩

theorem relaxAll_invK (item : TreeNode) :
    ∀ (arcs : List Arc) (used : List (Nat × TreeNode)) (heap : List TreeNode)
      (ctr : Nat),
      (∀ a ∈ arcs, ∀ nb, a.1 = some nb → (alistLookup used nb).isSome) →
      (∀ n ∈ heap, (alistLookup used n.state).isSome) →
      ∃ used2 heap2 ctr2,
        relaxAll item arcs (used, heap, ctr) = some (used2, heap2, ctr2) ∧
        (∀ n ∈ heap2, (alistLookup used2 n.state).isSome)
  | [], used, heap, ctr, _, hinv => ⟨used, heap, ctr, rfl, hinv⟩
  | a :: rest, used, heap, ctr, harcs, hinv => by
    have hone := relaxArc_ne_none item used heap ctr a
      (harcs a (List.mem_cons_self _ _))
    cases h1 : relaxArc item (used, heap, ctr) a with
    | none => exact absurd h1 hone
    | some st1 =>
      obtain ⟨u1, h1', c1⟩ := st1
      obtain ⟨hmono, hdesc⟩ := relaxArc_invK item used u1 heap h1' ctr c1 a h1
      have harcs2 : ∀ b ∈ rest, ∀ nb, b.1 = some nb →
          (alistLookup u1 nb).isSome :=
        fun b hb nb hnb => hmono nb (harcs b (List.mem_cons_of_mem _ hb) nb hnb)
      have hinv2 : ∀ n ∈ h1', (alistLookup u1 n.state).isSome := by
        intro n hn
        rcases hdesc n hn with h2 | h2
        · exact hmono n.state (hinv n h2)
        · exact h2
      obtain ⟨u2, h2', c2, heq, hfin⟩ :=
        relaxAll_invK item rest u1 h1' c1 harcs2 hinv2
      exact ⟨u2, h2', c2, by simp [relaxAll, h1, heq], hfin⟩

theorem transition_list_partner (t : Transition) (s : State)
    (used : List (Nat × TreeNode)) :
    ∀ a ∈ t.transition_list s used, ∀ nb, a.1 = some nb →
      (alistLookup used nb).isSome := by
  intro a ha nb hnb
  obtain ⟨p, sym, tgt⟩ := a
  simp only at hnb
  subst hnb
  have h2 := (List.mem_filter.mp ha).2
  simpa using h2

theorem findLoop_no_panic (ta : TreeAutomation) (f : State)
    (hf : ta.final_state = some f) :
    ∀ (fuel : Nat) (used : List (Nat × TreeNode)) (heap : List TreeNode)
      (ctr : Nat),
      (∀ n ∈ heap, (alistLookup used n.state).isSome) →
      findLoop ta used heap ctr fuel ≠ some .panicked
  | 0, used, heap, ctr, hinv => by simp [findLoop]
  | fuel + 1, used, heap, ctr, hinv => by
    unfold findLoop
    split
    · simp
    next item heap2 hp =>
      have hmem : item ∈ heap := heapPop_mem heap item heap2 hp
      have hsome := hinv item hmem
      have hinv2 : ∀ n ∈ heap2, (alistLookup used n.state).isSome :=
        fun n hn => hinv n (heapPop_subset heap item heap2 hp n hn)
      split
      · next heq => rw [heq] at hsome; cases hsome
      next best heq =>
        split
        · exact findLoop_no_panic ta f hf fuel used heap2 ctr hinv2
        · split
          · next heqf => rw [hf] at heqf; cases heqf
          next f2 heqf =>
            split
            · simp
            · obtain ⟨u2, h2, c2, heq2, hfin⟩ :=
                relaxAll_invK item
                  (ta.transition.transition_list item.state used) used heap2 ctr
                  (transition_list_partner ta.transition item.state used) hinv2
              split
              · next heq3 => rw [heq2] at heq3; cases heq3
              next st2 heq3 =>
                have hst : st2 = (u2, h2, c2) := by
                  rw [heq2] at heq3
                  exact (Option.some.inj heq3).symm
                subst hst
                exact findLoop_no_panic ta f hf fuel u2 h2 c2 hfin

theorem seed_invK :
    ∀ (rest : List (State × Nat)) (used : List (Nat × TreeNode))
      (heap : List TreeNode) (ctr : Nat),
      (∀ n ∈ heap, (alistLookup used n.state).isSome) →
      ∀ n ∈ (seed rest used heap ctr).2.1,
        (alistLookup (seed rest used heap ctr).1 n.state).isSome
  | [], used, heap, ctr, hinv => by simpa [seed] using hinv
  | (s, w) :: rest, used, heap, ctr, hinv => by
    simp only [seed]
    apply seed_invK rest _ _ _
    intro n hn
    rcases List.mem_cons.mp hn with h1 | h1
    · subst h1
      simp only [TreeNode.state_mk]
      rw [alistLookup_usedInsert_self]
      rfl
    · exact isSome_alistLookup_usedInsert used s n.state _ (hinv n h1)

/-! ### Weight-invariant preservation lemmas -/

theorem pairMem_of_mem :
    ∀ (start : List (State × Nat)) (p : State × Nat), p ∈ start →
      pairMem p start = true
  | [], p, h => by simp at h
  | q :: rest, p, h => by
    rcases List.mem_cons.mp h with h1 | h1
    · subst h1
      simp [pairMem]
    · simp [pairMem, pairMem_of_mem rest p h1]

theorem nodeWFb_unary (start : List (State × Nat)) (i : Nat) (t : State)
    (a : TreeNode) (sym : Symbol) (ha : nodeWFb start a = true) :
    nodeWFb start
      (.mk i t (some a) none (some sym) (a.weight + sym.weight)) = true := by
  simp [nodeWFb, childWeight, ha]
  omega

theorem nodeWFb_binary (start : List (State × Nat)) (i : Nat) (t : State)
    (a b : TreeNode) (sym : Symbol) (ha : nodeWFb start a = true)
    (hb : nodeWFb start b = true) :
    nodeWFb start
      (.mk i t (some a) (some b) (some sym)
        (a.weight + b.weight + sym.weight)) = true := by
  simp [nodeWFb, childWeight, ha, hb]
  omega

theorem relaxArc_wf (start0 : List (State × Nat)) (item : TreeNode)
    (used used2 : List (Nat × TreeNode)) (heap heap2 : List TreeNode)
    (ctr ctr2 : Nat) (arc : Arc)
    (hitem : nodeWFb start0 item = true)
    (hused : ∀ p ∈ used, nodeWFb start0 p.2 = true)
    (hheap : ∀ n ∈ heap, nodeWFb start0 n = true)
    (h : relaxArc item (used, heap, ctr) arc = some (used2, heap2, ctr2)) :
    (∀ p ∈ used2, nodeWFb start0 p.2 = true) ∧
    (∀ n ∈ heap2, nodeWFb start0 n = true) := by
  obtain ⟨nearOpt, sym, tgt⟩ := arc
  cases nearOpt with
  | none =>
    simp only [relaxArc] at h
    split at h <;> simp at h
    · obtain ⟨hu, hh, -⟩ := h
      subst hu
      subst hh
      have hwf := nodeWFb_unary start0 ctr tgt item sym hitem
      constructor
      · intro p hp
        rcases mem_usedInsert used _ _ p hp with h1 | h1
        · rw [h1]
          exact hwf
        · exact hused p h1
      · intro n hn
        rcases List.mem_cons.mp hn with h1 | h1
        · subst h1
          exact hwf
        · exact hheap n h1
    · obtain ⟨hu, hh, -⟩ := h
      subst hu
      subst hh
      exact ⟨hused, hheap⟩
  | some nb =>
    cases hl : alistLookup used nb with
    | none => simp [relaxArc, hl] at h
    | some pn =>
      have hpn : nodeWFb start0 pn = true :=
        hused (nb, pn) (alistLookup_mem used nb pn hl)
      simp only [relaxArc, hl] at h
      split at h <;> simp at h
      · obtain ⟨hu, hh, -⟩ := h
        subst hu
        subst hh
        have hwf := nodeWFb_binary start0 ctr tgt item pn sym hitem hpn
        constructor
        · intro p hp
          rcases mem_usedInsert used _ _ p hp with h1 | h1
          · rw [h1]
            exact hwf
          · exact hused p h1
        · intro n hn
          rcases List.mem_cons.mp hn with h1 | h1
          · subst h1
            exact hwf
          · exact hheap n h1
      · obtain ⟨hu, hh, -⟩ := h
        subst hu
        subst hh
        exact ⟨hused, hheap⟩

theorem relaxAll_wf (start0 : List (State × Nat)) (item : TreeNode)
    (hitem : nodeWFb start0 item = true) :
    ∀ (arcs : List Arc) (used : List (Nat × TreeNode)) (heap : List TreeNode)
      (ctr : Nat) (used2 : List (Nat × TreeNode)) (heap2 : List TreeNode)
      (ctr2 : Nat),
      (∀ p ∈ used, nodeWFb start0 p.2 = true) →
      (∀ n ∈ heap, nodeWFb start0 n = true) →
      relaxAll item arcs (used, heap, ctr) = some (used2, heap2, ctr2) →
      (∀ p ∈ used2, nodeWFb start0 p.2 = true) ∧
      (∀ n ∈ heap2, nodeWFb start0 n = true)
  | [], used, heap, ctr, used2, heap2, ctr2, hused, hheap, h => by
    simp [relaxAll] at h
    obtain ⟨h1, h2, -⟩ := h
    subst h1
    subst h2
    exact ⟨hused, hheap⟩
  | a :: rest, used, heap, ctr, used2, heap2, ctr2, hused, hheap, h => by
    simp only [relaxAll] at h
    cases h1 : relaxArc item (used, heap, ctr) a with
    | none =>
      rw [h1] at h
      exact Option.noConfusion h
    | some st1 =>
      obtain ⟨u1, h1', c1⟩ := st1
      rw [h1] at h
      obtain ⟨hu1, hh1⟩ :=
        relaxArc_wf start0 item used u1 heap h1' ctr c1 a hitem hused hheap h1
      exact relaxAll_wf start0 item hitem rest u1 h1' c1 used2 heap2 ctr2 hu1 hh1 h

theorem seed_wf (start0 : List (State × Nat)) :
    ∀ (rest : List (State × Nat)) (used : List (Nat × TreeNode))
      (heap : List TreeNode) (ctr : Nat),
      (∀ p ∈ rest, p ∈ start0) →
      (∀ p ∈ used, nodeWFb start0 p.2 = true) →
      (∀ n ∈ heap, nodeWFb start0 n = true) →
      (∀ p ∈ (seed rest used heap ctr).1, nodeWFb start0 p.2 = true) ∧
      (∀ n ∈ (seed rest used heap ctr).2.1, nodeWFb start0 n = true)
  | [], used, heap, ctr, _, hused, hheap => ⟨hused, hheap⟩
  | (s, w) :: rest, used, heap, ctr, hsub, hused, hheap => by
    have hwf : nodeWFb start0 (TreeNode.mk ctr s none none none w) = true := by
      simp [nodeWFb]
      exact pairMem_of_mem start0 (s, w) (hsub (s, w) (List.mem_cons_self _ _))
    simp only [seed]
    apply seed_wf start0 rest _ _ _
    · intro p hp
      exact hsub p (List.mem_cons_of_mem _ hp)
    · intro p hp
      rcases mem_usedInsert used s _ p hp with h1 | h1
      · rw [h1]
        exact hwf
      · exact hused p h1
    · intro n hn
      rcases List.mem_cons.mp hn with h1 | h1
      · subst h1
        exact hwf
      · exact hheap n h1

theorem findLoop_wf (ta : TreeAutomation) (start0 : List (State × Nat)) :
    ∀ (fuel : Nat) (used : List (Nat × TreeNode)) (heap : List TreeNode)
      (ctr : Nat) (n : TreeNode),
      (∀ p ∈ used, nodeWFb start0 p.2 = true) →
      (∀ m ∈ heap, nodeWFb start0 m = true) →
      findLoop ta used heap ctr fuel = some (.found n) →
      nodeWFb start0 n = true
  | 0, used, heap, ctr, n, _, _, h => by simp [findLoop] at h
  | fuel + 1, used, heap, ctr, n, hused, hheap, h => by
    unfold findLoop at h
    split at h
    · simp at h
    next item heap2 hp =>
      have hitem : nodeWFb start0 item = true :=
        hheap item (heapPop_mem heap item heap2 hp)
      have hheap2 : ∀ m ∈ heap2, nodeWFb start0 m = true :=
        fun m hm => hheap m (heapPop_subset heap item heap2 hp m hm)
      split at h
      · simp at h
      next best heq =>
        split at h
        · exact findLoop_wf ta start0 fuel used heap2 ctr n hused hheap2 h
        · split at h
          · simp at h
          next f2 heqf =>
            split at h
            · simp at h
              exact h ▸ hitem
            · split at h
              · simp at h
              next st2 heq3 =>
                obtain ⟨u2, h2', c2⟩ := st2
                obtain ⟨hu2, hh2⟩ := relaxAll_wf start0 item hitem
                  (ta.transition.transition_list item.state used)
                  used heap2 ctr u2 h2' c2 hused hheap2 heq3
                exact findLoop_wf ta start0 fuel u2 h2' c2 n hu2 hh2 h

/-! ### Claim theorems (concrete evaluations) -/

/-- C1. The identity check of line 143 is inverted with respect to the claim:
on the automaton whose single seeded state 0 (weight 0) is also the final
state, the popped node IS the registered best-known node, yet it is discarded
by `continue` instead of being finalized and returned, and the search ends
with the frontier empty. The claim's behaviour would return the weight-0 node. -/
theorem c1_identical_node_discarded : c1auto.find_path 3 = some .exhausted := rfl

/-- C2. Line 175 treats an absent best-known entry as weight 0, not as
"install unconditionally": for a candidate of weight 1 whose target state has
no best-known entry, the source guard refuses (1 < 0 fails) while the spec
guard accepts; consequently relaxing a unary arc from a weight-0 node over an
empty best-known table installs nothing and pushes nothing (only the
allocation counter advances). -/
theorem c2_absent_entry_never_installs :
    relaxCheck [] (TreeNode.mk 0 1 none none none 1) = false ∧
    relaxCheckSpec [] (TreeNode.mk 0 1 none none none 1) = true ∧
    relaxAll (TreeNode.mk 0 0 none none none 0) [(none, symA, 1)] ([], [], 5) =
      some ([], [], 6) :=
  ⟨rfl, rfl, rfl⟩

/-- C3. `Transition::add` on `Pair(0, 1)` with target 2 registers BOTH
entries under key 0 — `(partner 1)` and then `(partner 0)` — and registers
nothing under key 1, contradicting the claimed symmetric indexing (one entry
keyed by 0 with partner 1, one keyed by 1 with partner 0). -/
theorem c3_pair_indexed_asymmetrically :
    (Transition.new.add symA (.pair 0 1) 2).items =
      [(0, [(some 1, symA, 2), (some 0, symA, 2)])] ∧
    alistLookup (Transition.new.add symA (.pair 0 1) 2).items 1 = none :=
  ⟨rfl, rfl⟩

/-- C4. On Scenario A (initial state 0 weight 0, unary arc of weight 1 to the
final state 1) the search returns None (frontier exhausted): the seeded node
is pointer-identical to its best-known entry, so the inverted identity check
discards it and no derivation of weight 1 is ever produced. -/
theorem c4_scenario_a_returns_none : scenarioA.find_path 9 = some .exhausted := rfl

/-- C5. Scenario A has an accepting derivation of weight 1 to the final
state 1 (so the true minimum is finite), yet the search reports no
derivation at all — its result is not the minimum over accepting
derivations. -/
theorem c5_reachable_final_yet_no_result :
    scenarioA.find_path 9 = some .exhausted ∧
    SpecDerives scenarioAarcs [(0, 0)] 1 1 := by
  refine ⟨rfl, ?_⟩
  have h0 : SpecDerives scenarioAarcs [(0, 0)] 0 0 :=
    SpecDerives.init 0 0 (by simp)
  simpa using SpecDerives.unary symA 0 1 0 (by simp [scenarioAarcs]) h0

/-- C6 counterexample. `find_path` does not always return None: when state 0
is seeded twice (weight 1 then weight 0) with final state 0, the stale
weight-1 node is popped second, fails the (inverted) identity check against
the registered weight-0 node, matches the final state and is returned. -/
theorem c6_found_on_duplicate_seed :
    dupAuto.find_path 5 = some (.found (.mk 0 0 none none none 1)) := rfl

/-- C6 amended. When no state is seeded twice (the initial-state list has
pairwise distinct states), every popped node is pointer-identical to its
best-known entry — the inverted identity check discards it — so the frontier
drains, no node is ever processed past the identity check, and `find_path`
returns None. -/
theorem c6_distinct_seeds_yield_none (ta : TreeAutomation)
    (hd : (ta.start_state.map Prod.fst).Nodup) (fuel : Nat)
    (hf : ta.start_state.length < fuel) :
    ta.find_path fuel = some .exhausted := by
  unfold TreeAutomation.find_path
  apply findLoop_all_identical
  · exact seed_lookup_nodup ta.start_state [] [] 0 hd (by simp) (by simp)
  · rw [seed_heap_length]
    simpa using hf

/-- C6 amended witness: the two-distinct-initial-state automaton (states 0
and 1, final state 1) satisfies the hypotheses and indeed returns None. -/
theorem c6_distinct_seeds_witness :
    (distinctAuto.start_state.map Prod.fst).Nodup ∧
    distinctAuto.start_state.length < 3 ∧
    distinctAuto.find_path 3 = some .exhausted :=
  ⟨by decide, by decide,
    c6_distinct_seeds_yield_none distinctAuto (by decide) 3 (by decide)⟩

/-- C7 counterexample. An automaton with no designated final state does not
necessarily panic: with a single seeded state every popped node is identical
to its best-known entry, so every node is discarded before the
`final_state.unwrap()` line is reached, and the search returns None. -/
theorem c7_no_final_no_panic :
    noFinalSingle.find_path 3 = some .exhausted := rfl

/-- C7 amended. The absence of a final state is not rejected before the loop:
the search still runs, and it panics on `final_state.unwrap()` exactly when
some popped node survives the identity check — e.g. when state 0 is seeded
twice, the stale weight-1 node reaches line 147 and the unwrap panics. -/
theorem c7_unwrap_panics_after_identity_miss :
    noFinalDup.find_path 5 = some .panicked := rfl

/-- C8. With a designated final state the search never panics: every popped
node's state is a key of the best-known table and every filtered arc's
partner is present, so the only loop exits are the found node, or the
frontier draining into the `exhausted` outcome — the embedding of line 182's
`return None` to the caller. -/
theorem c8_designated_final_no_panic (ta : TreeAutomation) (f : State)
    (hf : ta.final_state = some f) (fuel : Nat) :
    ta.find_path fuel ≠ some .panicked := by
  unfold TreeAutomation.find_path
  apply findLoop_no_panic ta f hf fuel
  exact seed_invK ta.start_state [] [] 0 (by simp)

/-- C8 witness: Scenario C (final state 2 designated but unreachable)
satisfies the hypothesis; its frontier drains and the result is the
no-derivation outcome, not a panic. -/
theorem c8_no_panic_witness :
    scenarioC.final_state = some 2 ∧
    scenarioC.find_path 9 ≠ some .panicked ∧
    scenarioC.find_path 9 = some .exhausted :=
  ⟨rfl, c8_designated_final_no_panic scenarioC 2 rfl 9, rfl⟩

/-- C9. Every derivation node returned by the search satisfies the weight
invariant `nodeWFb`: a node with a symbol weighs its symbol's weight plus
the weights of whichever children are present (recursively), and a node
with no symbol has no children and carries a declared (state, starting
weight) pair of the initial-state list. -/
theorem c9_result_weight_invariant (ta : TreeAutomation) (fuel : Nat)
    (n : TreeNode) (h : ta.find_path fuel = some (.found n)) :
    nodeWFb ta.start_state n = true := by
  unfold TreeAutomation.find_path at h
  refine findLoop_wf ta ta.start_state fuel _ _ _ n ?_ ?_ h
  · exact (seed_wf ta.start_state ta.start_state [] [] 0
      (fun p hp => hp) (by simp) (by simp)).1
  · exact (seed_wf ta.start_state ta.start_state [] [] 0
      (fun p hp => hp) (by simp) (by simp)).2

/-- C9 witness: the node returned on the twice-seeded automaton is childless,
symbolless and carries the declared pair (state 0, weight 1). -/
theorem c9_weight_invariant_witness :
    nodeWFb dupAuto.start_state (.mk 0 0 none none none 1) = true :=
  c9_result_weight_invariant dupAuto 5 (.mk 0 0 none none none 1) rfl

/-- C10. The ordering relations on derivation nodes compare weight only:
`eqNode` (the `PartialEq` impl) holds iff the weights are equal, `cmpNode`
(the `Ord` impl) is exactly the reversed weight comparison, and popping the
frontier under `cmpNode` yields a node of minimum weight. -/
theorem c10_order_by_weight_only :
    (∀ a b : TreeNode, eqNode a b = true ↔ a.weight = b.weight) ∧
    (∀ a b : TreeNode, cmpNode a b = compare b.weight a.weight) ∧
    (∀ (l : List TreeNode) (n : TreeNode) (r : List TreeNode),
      heapPop l = some (n, r) → ∀ m ∈ l, n.weight ≤ m.weight) :=
  ⟨fun a b => by simp [eqNode], fun a b => rfl, heapPop_min⟩

/-- C10 witness: on the two-element frontier holding nodes of weight 5 and
weight 2, the pop returns the weight-2 node, whose weight is below the
weight-5 node's; and the weight-only equality evaluates as claimed. -/
theorem c10_order_witness :
    (eqNode nodeWt2 nodeWt5 = true ↔ nodeWt2.weight = nodeWt5.weight) ∧
    nodeWt2.weight ≤ nodeWt5.weight :=
  ⟨c10_order_by_weight_only.1 nodeWt2 nodeWt5,
   c10_order_by_weight_only.2.2 [nodeWt5, nodeWt2] nodeWt2 [nodeWt5] rfl
     nodeWt5 (List.mem_cons_self _ _)⟩

end TreeAutomata
